import Mathlib

set_option maxHeartbeats 1000000

/-!
Verification development for the audio-capture repository: a shallow embedding
of the PCM framing, G.711 mu-law compression, RTP packetization, chunking and
per-peer reassembly pipeline, with theorems settling the frozen claims.

Bytes are modelled as natural numbers below 256, byte strings as lists of
naturals, and Go `int16` values as integers in the signed 16-bit range with
explicit two-complement wraparound where Go overflow can occur.
-/

/-- Two-complement wraparound into the signed 16-bit range, modelling Go
`int16` arithmetic overflow. -/
def wrap16 (n : Int) : Int := (n + 32768) % 65536 - 32768

/-- Unsigned 16-bit representation of a signed 16-bit value, used to model Go
bitwise operations on `int16`. -/
def toRep16 (v : Int) : Nat := (v % 65536).toNat

/-- Go arithmetic right shift on `int16`: floor division by a power of two. -/
def sar16 (v : Int) (k : Nat) : Int := Int.fdiv v (2 ^ k)

/-- The exponent-search loop of `linearToMuLaw` (src/unnamed/part_003 lines
219-222): `for i := int16(0x4000); (sample & i) == 0; i >>= 1 ( exponent-- )`.
The first argument is the unsigned representation of `sample`, then the loop
variables `i` and `exponent`, then fuel; `none` models the loop failing to
terminate, which is unreachable from the call site. -/
def expSearch (rep : Nat) : Nat → Int → Nat → Option Int
  | _, _, 0 => none
  | i, e, fuel + 1 =>
    if rep &&& i == 0 then
      if i == 0 then none else expSearch rep (i >>> 1) (e - 1) fuel
    else some e

/-- Embedding of `linearToMuLaw` (src/unnamed/part_003 lines 202-228).
Go `int16` negation and addition wrap on overflow; a negative shift amount is
a Go runtime panic, modelled as `none`. -/
def linearToMuLaw (sample0 : Int) : Option Nat :=
  let sample := wrap16 sample0
  let sign : Nat := if sample < 0 then 0x80 else 0
  let sample := if sign ≠ 0 then wrap16 (-sample) else sample
  let sample := if sample > 32635 then (32635 : Int) else sample
  let sample := wrap16 (sample + 0x84)
  (expSearch (toRep16 sample) 0x4000 7 16).bind (fun exponent =>
    if exponent + 3 < 0 then none
    else
      let position : Nat := toRep16 (sar16 sample (exponent + 3).toNat) &&& 0x0F
      let segment : Nat := ((exponent * 16) % 256).toNat
      some ((sign ||| segment ||| position) ^^^ 255))

/-- Modelled from the spec: the exponent choice of the reference compression —
the most significant set bit among the top 8 bits of the biased magnitude
(bits 7 to 14) picks the exponent, 7 down to 0. -/
def refExp (b : Nat) : Nat :=
  if b &&& 0x4000 ≠ 0 then 7
  else if b &&& 0x2000 ≠ 0 then 6
  else if b &&& 0x1000 ≠ 0 then 5
  else if b &&& 0x0800 ≠ 0 then 4
  else if b &&& 0x0400 ≠ 0 then 3
  else if b &&& 0x0200 ≠ 0 then 2
  else if b &&& 0x0100 ≠ 0 then 1
  else 0

/-- Modelled from the spec: the G.711 mu-law compression exactly as the spec
words it — determine the sign, clamp the magnitude to 32635, add the bias
0x84, pick the exponent from the most significant set bit among the top 8
magnitude bits, extract the 4-bit mantissa below it, compose
segment shifted left by 4 or-ed with the mantissa and the sign bit in bit 7,
and complement all bits. -/
def muLawRef (s : Int) : Nat :=
  let sign : Nat := if s < 0 then 0x80 else 0
  let mag : Nat := min s.natAbs 32635
  let b : Nat := mag + 0x84
  let e : Nat := refExp b
  let mant : Nat := (b >>> (e + 3)) &&& 0x0F
  (sign ||| (e * 16) ||| mant) ^^^ 255

/-- Modelled from the spec: the standard inverse G.711 mu-law expansion (the
spec calls the codec round-trip-testable against it); complement, split into
sign, exponent and mantissa, rebuild the biased magnitude and remove the
bias. -/
def muLawDecode (u0 : Nat) : Int :=
  let u := (u0 % 256) ^^^ 255
  let sign := u &&& 0x80
  let e := (u >>> 4) &&& 7
  let mant := u &&& 0x0F
  let t : Int := ((mant * 8 + 0x84) <<< e : Nat)
  if sign ≠ 0 then 0x84 - t else t - 0x84

/-- Audio sample rate of the L16 sender (src/main.go). -/
def sampleRateL16 : Nat := 48000

/-- Channel count of the L16 sender (src/main.go). -/
def channelsL16 : Nat := 2

/-- Bit depth of the L16 sender (src/main.go). -/
def bitDepthL16 : Nat := 16

/-- Dynamic RTP payload type of the L16 sender (src/main.go). -/
def payloadTypeL16 : Nat := 96

/-- RTP clock rate of the L16 sender (src/main.go). -/
def rtpClockRateL16 : Nat := 48000

/-- MTU constant of the L16 sender (src/main.go). -/
def mtuL16 : Nat := 1500

/-- Frame buffer size of the L16 sender: 20 ms of audio
(src/main.go line 157). -/
def bufferSizeL16 : Nat := (sampleRateL16 / 50) * channelsL16 * (bitDepthL16 / 8)

/-- RTP samples per frame of the L16 sender (src/main.go line 175). -/
def samplesPerFrameL16 : Nat := rtpClockRateL16 / 50

/-- Audio sample rate of the mu-law sender (src/unnamed/part_003). -/
def sampleRatePCMU : Nat := 44100

/-- Channel count of the mu-law sender (src/unnamed/part_003). -/
def channelsPCMU : Nat := 2

/-- Bit depth of the mu-law sender (src/unnamed/part_003). -/
def bitDepthPCMU : Nat := 16

/-- Static RTP payload type 0 (PCMU) of the mu-law sender
(src/unnamed/part_003). -/
def payloadTypePCMU : Nat := 0

/-- RTP clock rate of the mu-law sender (src/unnamed/part_003). -/
def rtpClockRatePCMU : Nat := 8000

/-- MTU constant of the mu-law sender (src/unnamed/part_003). -/
def mtuPCMU : Nat := 1500

/-- Frame buffer size of the mu-law sender (src/unnamed/part_003 line 126). -/
def bufferSizePCMU : Nat := (sampleRatePCMU / 50) * channelsPCMU * (bitDepthPCMU / 8)

/-- RTP samples per frame of the mu-law sender (src/unnamed/part_003
line 148). -/
def samplesPerFramePCMU : Nat := rtpClockRatePCMU / 50

/-- Decimation step of the mu-law payloader, in samples
(src/unnamed/part_003 line 179). -/
def stepPCMU : Nat := (sampleRatePCMU / rtpClockRatePCMU) * channelsPCMU

/-- The chunk-splitting loop shared by both payloaders (src/main.go lines
207-215 and src/unnamed/part_003 lines 188-195): repeatedly take
`min (length payload) mtu` bytes. Fuel models the loop counter; with a zero
MTU and a nonempty payload the Go loop never terminates, which the fuel
version reports as `none`. -/
def chunkLoop (mtu : Nat) : Nat → List Nat → Option (List (List Nat))
  | _, [] => some []
  | 0, _ :: _ => none
  | fuel + 1, l =>
    let chunkSize := min l.length mtu
    match chunkLoop mtu fuel (l.drop chunkSize) with
    | some rest => some (l.take chunkSize :: rest)
    | none => none

/-- Embedding of `pcmPayloader.Payload` (src/main.go lines 205-216): split the
payload into MTU-sized chunks. -/
def pcmPayloaderPayload (mtu : Nat) (payload : List Nat) : Option (List (List Nat)) :=
  chunkLoop mtu (payload.length + 1) payload

/-- A little-endian signed 16-bit sample from two payload bytes, as built by
`int16(payload[i]) | int16(payload[i+1])<<8` (src/unnamed/part_003 line 183);
the shift of the high byte wraps in `int16`. -/
def int16LE (b0 b1 : Nat) : Int := wrap16 ((b0 : Int) + 256 * (b1 : Int))

/-- The decimate-and-encode loop of `pcmToMuLawPayloader.Payload`
(src/unnamed/part_003 lines 182-185): while at least two bytes remain, encode
the little-endian sample at the front and skip `2 * stepPCMU` bytes. Fuel
models the loop counter and is always sufficient; `none` propagates a panic
of `linearToMuLaw`. -/
def muLawEncodeLoop : Nat → List Nat → Option (List Nat)
  | 0, _ => none
  | fuel + 1, payload =>
    if 2 ≤ payload.length then
      match linearToMuLaw (int16LE (payload.getD 0 0) (payload.getD 1 0)) with
      | none => none
      | some b =>
        match muLawEncodeLoop fuel (payload.drop (2 * stepPCMU)) with
        | none => none
        | some rest => some (b :: rest)
    else some []

/-- The mu-law byte string produced by `pcmToMuLawPayloader.Payload` before
chunk splitting (src/unnamed/part_003 lines 179-185). -/
def muLawEncode (payload : List Nat) : Option (List Nat) :=
  muLawEncodeLoop (payload.length + 1) payload

/-- Embedding of `pcmToMuLawPayloader.Payload` (src/unnamed/part_003 lines
173-198): decimate and mu-law-encode the PCM bytes, then split into MTU-sized
chunks. -/
def pcmToMuLawPayloaderPayload (mtu : Nat) (payload : List Nat) : Option (List (List Nat)) :=
  match muLawEncode payload with
  | none => none
  | some enc => chunkLoop mtu (enc.length + 1) enc

/-- How the capture byte stream ends: the source closing (EOF) or a read
fault. -/
inductive EndKind where
  | cleanEOF : EndKind
  | ioError : EndKind
deriving DecidableEq

/-- The frame-reading loop of `startStreaming` (src/main.go lines 160-173 and
src/unnamed/part_003 lines 129-143): `io.ReadFull` delivers a full frame of
`frameSize` bytes whenever enough bytes remain; at a short or empty read the
loop stops, cleanly on EOF and fatally on a read fault. Fuel models the loop
counter; with a zero frame size the Go loop never terminates, reported as
`none`. -/
def readLoopF (frameSize : Nat) (endk : EndKind) : Nat → List Nat → Option (List (List Nat) × EndKind)
  | 0, _ => none
  | fuel + 1, stream =>
    if frameSize = 0 then none
    else if frameSize ≤ stream.length then
      match readLoopF frameSize endk fuel (stream.drop frameSize) with
      | some (fs, k) => some (stream.take frameSize :: fs, k)
      | none => none
    else some ([], endk)

/-- The frames delivered by the capture loop together with how the loop
terminated. -/
def readLoop (frameSize : Nat) (endk : EndKind) (stream : List Nat) : Option (List (List Nat) × EndKind) :=
  readLoopF frameSize endk (stream.length + 1) stream

/-- An RTP packet as the pipeline sees it: the header fields of the fixed
12-byte header plus the payload bytes. -/
structure RTPPacket where
  seqNum : Nat
  timestamp : Nat
  ssrc : Nat
  payloadType : Nat
  payload : List Nat
deriving DecidableEq

/-- Modelled from the spec: the per-frame packetizer step of the pion
packetizer (absent from src/) — given one frame timestamp and the list of
payload chunks, emit one packet per chunk; the sequence number increments by
one per packet with 16-bit wraparound, and every packet carries the frame
timestamp (32-bit wraparound), the session sync-source id and the payload
type. -/
def packetizeChunks (ssrc pt ts : Nat) : Nat → List (List Nat) → List RTPPacket
  | _, [] => []
  | seq, c :: cs =>
    { seqNum := seq % 65536, timestamp := ts % 4294967296,
      ssrc := ssrc % 4294967296, payloadType := pt, payload := c }
      :: packetizeChunks ssrc pt ts (seq + 1) cs

/-- Modelled from the spec: the packetizer run over a list of frames, one
inner list of packets per frame — the sequence counter carries over across
frames, and the timestamp advances by the declared sample count per frame. -/
def packetizeFramesG (ssrc pt samples : Nat) : Nat → Nat → List (List (List Nat)) → List (List RTPPacket)
  | _, _, [] => []
  | seq, ts, chunks :: rest =>
    packetizeChunks ssrc pt ts seq chunks
      :: packetizeFramesG ssrc pt samples (seq + chunks.length) (ts + samples) rest

/-- Modelled from the spec: standard RTP wire marshalling (the senders call
the pion `Marshal`, absent from src/) — version 2 in the top bits of byte 0,
no padding, extension or csrc, payload type in byte 1, then big-endian
sequence number, timestamp and sync-source id, then the payload. -/
def marshalRTP (p : RTPPacket) : List Nat :=
  [128, p.payloadType % 128,
   p.seqNum / 256 % 256, p.seqNum % 256,
   p.timestamp / 16777216 % 256, p.timestamp / 65536 % 256,
   p.timestamp / 256 % 256, p.timestamp % 256,
   p.ssrc / 16777216 % 256, p.ssrc / 65536 % 256,
   p.ssrc / 256 % 256, p.ssrc % 256] ++ p.payload

/-- Modelled from the spec: the header and length validation of the pion
`Unmarshal` called by the receiver (absent from src/) — a datagram shorter
than the 12-byte header or whose version field is not 2 is rejected;
otherwise the header fields and the payload are read back. -/
def parseRTP : List Nat → Option RTPPacket
  | b0 :: b1 :: b2 :: b3 :: b4 :: b5 :: b6 :: b7 :: b8 :: b9 :: b10 :: b11 :: payload =>
    if ¬ (b0 % 256) >>> 6 = 2 then none
    else some
      { seqNum := b2 % 256 * 256 + b3 % 256,
        timestamp := b4 % 256 * 16777216 + b5 % 256 * 65536 + b6 % 256 * 256 + b7 % 256,
        ssrc := b8 % 256 * 16777216 + b9 % 256 * 65536 + b10 % 256 * 256 + b11 % 256,
        payloadType := b1 % 128,
        payload := payload }
  | _ => none

/-- The sample-decoding loop of the receiver (src/unnamed/part_002 lines
106-117): read consecutive byte pairs as big-endian signed 16-bit integers;
a trailing odd byte is not read. -/
def decodeSamples : List Nat → List Int
  | hi :: lo :: rest => wrap16 ((hi % 256 : Int) * 256 + (lo % 256 : Int)) :: decodeSamples rest
  | _ => []

/-- Lookup in the receiver peer map, modelled as an association list in
creation order (src/unnamed/part_002 line 78). -/
def lookupPeer : List (Nat × List Int) → Nat → Option (List Int)
  | [], _ => none
  | (k, v) :: rest, a => if k = a then some v else lookupPeer rest a

/-- Append decoded samples to the container of a peer already present in the
map (src/unnamed/part_002 line 129). -/
def appendPeer : List (Nat × List Int) → Nat → List Int → List (Nat × List Int)
  | [], _, _ => []
  | (k, v) :: rest, a, s =>
    if k = a then (k, v ++ s) :: rest else (k, v) :: appendPeer rest a s

/-- The receiver handling of one successfully parsed packet from address `a`
(src/unnamed/part_002 lines 74-131): create the peer container on first
sight, then decode the payload and append; with fewer than two payload bytes
nothing is appended. -/
def processPacket (m : List (Nat × List Int)) (a : Nat) (p : RTPPacket) : List (Nat × List Int) :=
  let m1 := if (lookupPeer m a).isSome then m else m ++ [(a, [])]
  if p.payload.length / 2 = 0 then m1 else appendPeer m1 a (decodeSamples p.payload)

/-- One iteration of the receiver loop on a datagram (src/unnamed/part_002
lines 52-133): drop the datagram if RTP parsing fails, otherwise process the
packet under its source address. -/
def receiverStep (m : List (Nat × List Int)) (d : Nat × List Nat) : List (Nat × List Int) :=
  match parseRTP d.2 with
  | none => m
  | some p => processPacket m d.1 p

/-- The receiver loop over a finite sequence of incoming datagrams. -/
def receiverRun (m : List (Nat × List Int)) (ds : List (Nat × List Nat)) : List (Nat × List Int) :=
  ds.foldl receiverStep m

/-- The samples a given address contributes: the concatenation, in arrival
order, of the decoded payloads of the datagrams from that address that parse
as RTP. -/
def collected (ds : List (Nat × List Nat)) (a : Nat) : List Int :=
  ((ds.filter (fun d => d.1 == a && (parseRTP d.2).isSome)).map
    (fun d => match parseRTP d.2 with
      | some p => decodeSamples p.payload
      | none => [])).flatten

/-- Whether some datagram from address `a` parses as RTP (the condition under
which the receiver creates the peer container for `a`). -/
def seenValid (ds : List (Nat × List Nat)) (a : Nat) : Bool :=
  ds.any (fun d => d.1 == a && (parseRTP d.2).isSome)

/-- The L16 sender pipeline (src/main.go lines 155-198) on a finite capture
stream: frame the stream, split each frame with the payloader, and packetize;
the packetizer and its MTU-1500 chunk bound are modelled from the spec. -/
def l16SenderPackets (ssrc s0 t0 : Nat) (stream : List Nat) (endk : EndKind) : Option (List (List RTPPacket)) :=
  (readLoop bufferSizeL16 endk stream).bind (fun fk =>
    (fk.1.mapM (fun f => pcmPayloaderPayload mtuL16 f)).map (fun chunkss =>
      packetizeFramesG ssrc payloadTypeL16 samplesPerFrameL16 s0 t0 chunkss))


/-- Closed form of the chunks the splitting loop produces: chunk `k` is the
MTU-sized slice at offset `k * mtu`. -/
def chunksOf (mtu : Nat) (l : List Nat) : List (List Nat) :=
  (List.range ((l.length + mtu - 1) / mtu)).map (fun k => (l.drop (k * mtu)).take mtu)

/-- Closed form of the frames the capture loop delivers: frame `k` is the
frame-sized slice at offset `k * frameSize`; a trailing partial frame is not
delivered. -/
def framesOf (d : Nat) (l : List Nat) : List (List Nat) :=
  (List.range (l.length / d)).map (fun k => (l.drop (k * d)).take d)

/-- Values already in the signed 16-bit range are fixed by the wraparound. -/
theorem wrap16_eq_self (v : Int) (h1 : -32768 ≤ v) (h2 : v < 32768) : wrap16 v = v := by
  unfold wrap16
  omega

/-- The unsigned representation of a nonnegative in-range value is itself. -/
theorem toRep16_eq_toNat (v : Int) (h1 : 0 ≤ v) (h2 : v < 65536) : toRep16 v = v.toNat := by
  unfold toRep16
  omega

/-- Eight steps of the exponent-search loop, stated for a loop counter at bit
`j + d` over a value whose most significant bit is bit `j`. -/
theorem expSearch_aux (d : Nat) : ∀ (j : Nat) (rep : Nat) (fuel : Nat), 2 ^ j ≤ rep →
    rep < 2 ^ (j + 1) → d + 1 ≤ fuel →
    expSearch rep (2 ^ (j + d)) ((j : Int) + d - 7) fuel = some ((j : Int) - 7) := by
  induction d with
  | zero =>
    intro j rep fuel h1 h2 hf
    match fuel, hf with
    | fuel + 1, _ =>
      have hdiv : rep / 2 ^ j = 1 := by
        apply Nat.div_eq_of_lt_le
        · simpa using h1
        · rw [Nat.pow_succ] at h2
          omega
      have ht : rep.testBit j = true := by
        simp [Nat.testBit_to_div_mod, hdiv]
      have hbit : rep &&& 2 ^ (j + 0) = 2 ^ j := by
        rw [Nat.add_zero, Nat.and_two_pow, ht]
        simp
      have hne : ¬ ((rep &&& 2 ^ (j + 0) == 0) = true) := by
        rw [hbit]
        simp
      rw [expSearch, if_neg hne]
      norm_num
  | succ d ih =>
    intro j rep fuel h1 h2 hf
    match fuel, hf with
    | fuel + 1, hf =>
      have hlt : rep < 2 ^ (j + (d + 1)) :=
        lt_of_lt_of_le h2 (Nat.pow_le_pow_right (by norm_num) (by omega))
      have hzero : rep &&& 2 ^ (j + (d + 1)) = 0 := by
        rw [Nat.and_two_pow, Nat.testBit_eq_false_of_lt hlt]
        simp
      have hshift : 2 ^ (j + (d + 1)) >>> 1 = 2 ^ (j + d) := by
        rw [Nat.shiftRight_eq_div_pow, pow_one,
          show j + (d + 1) = (j + d) + 1 by omega, Nat.pow_succ]
        exact Nat.mul_div_cancel _ (by norm_num)
      rw [expSearch, if_pos (by simp [hzero]),
        if_neg (by simp), hshift]
      have harg : (j : Int) + ((d + 1 : Nat) : Int) - 7 - 1 = (j : Int) + (d : Int) - 7 := by
        push_cast
        ring
      rw [harg]
      exact ih j rep fuel h1 h2 (by omega)

/-- The exponent-search loop started as `linearToMuLaw` starts it computes
the index of the most significant bit, shifted down by 7, for any value with
its most significant bit between bit 7 and bit 14. -/
theorem expSearch_msb (j rep : Nat) (h1 : 2 ^ j ≤ rep) (h2 : rep < 2 ^ (j + 1))
    (h3 : 7 ≤ j) (h4 : j ≤ 14) :
    expSearch rep 0x4000 7 16 = some ((j : Int) - 7) := by
  have h := expSearch_aux (14 - j) j rep 16 h1 h2 (by omega)
  rw [show j + (14 - j) = 14 by omega] at h
  rw [show ((j : Int) + (14 - j : Nat) - 7) = 7 by omega] at h
  exact h

/-- Every biased magnitude between 128 and 32767 has a most significant bit
between bit 7 and bit 14. -/
theorem msb_exists (b : Nat) (h1 : 128 ≤ b) (h2 : b < 32768) :
    ∃ e : Nat, e ≤ 7 ∧ 2 ^ (e + 7) ≤ b ∧ b < 2 ^ (e + 8) := by
  by_cases c0 : b < 256
  · exact ⟨0, by omega, by simpa using h1, by simpa using c0⟩
  by_cases c1 : b < 512
  · exact ⟨1, by omega, by norm_num; omega, by norm_num; omega⟩
  by_cases c2 : b < 1024
  · exact ⟨2, by omega, by norm_num; omega, by norm_num; omega⟩
  by_cases c3 : b < 2048
  · exact ⟨3, by omega, by norm_num; omega, by norm_num; omega⟩
  by_cases c4 : b < 4096
  · exact ⟨4, by omega, by norm_num; omega, by norm_num; omega⟩
  by_cases c5 : b < 8192
  · exact ⟨5, by omega, by norm_num; omega, by norm_num; omega⟩
  by_cases c6 : b < 16384
  · exact ⟨6, by omega, by norm_num; omega, by norm_num; omega⟩
  · exact ⟨7, by omega, by norm_num; omega, by norm_num; omega⟩

/-- Field extraction from the composed mu-law byte, for every exponent and
mantissa value: the sign bit, exponent field and mantissa field read back
what was composed, and the byte is below 256. -/
theorem byteFields : ∀ e : Nat, e < 8 → ∀ p : Nat, p < 16 →
    ((128 ||| e * 16 ||| p) &&& 128 = 128 ∧ ((128 ||| e * 16 ||| p) >>> 4) &&& 7 = e ∧
      (128 ||| e * 16 ||| p) &&& 15 = p ∧ (128 ||| e * 16 ||| p) < 256) ∧
    ((e * 16 ||| p) &&& 128 = 0 ∧ ((e * 16 ||| p) >>> 4) &&& 7 = e ∧
      (e * 16 ||| p) &&& 15 = p ∧ (e * 16 ||| p) < 256) := by decide

/-- Low four bits of a five-bit value. -/
theorem and_fifteen (x : Nat) (h : x < 32) : x &&& 15 = x % 16 := by
  interval_cases x <;> decide

/-- The arithmetic shift of a nonnegative value is natural division. -/
theorem sar16_coe (a k : Nat) : sar16 (a : Int) k = ((a / 2 ^ k : Nat) : Int) := by
  unfold sar16
  rw [Int.fdiv_eq_ediv _ (by positivity),
    show ((2 : Int) ^ k) = ((2 ^ k : Nat) : Int) by push_cast; ring]
  exact (Int.ofNat_ediv a (2 ^ k)).symm

/-- Symbolic evaluation of `linearToMuLaw` on every input other than the
overflowing -32768: the encoder output is the complemented composition of the
sign bit, the exponent of the biased clamped magnitude, and the 4-bit
mantissa. -/
theorem linearToMuLaw_in_range (s : Int) (h1 : -32768 < s) (h2 : s < 32768) :
    ∃ e pos : Nat, e ≤ 7 ∧ pos < 16 ∧
      2 ^ (e + 7) ≤ min s.natAbs 32635 + 132 ∧
      min s.natAbs 32635 + 132 < 2 ^ (e + 8) ∧
      pos = (min s.natAbs 32635 + 132) / 2 ^ (e + 3) - 16 ∧
      linearToMuLaw s = some (((if s < 0 then 128 else 0) ||| e * 16 ||| pos) ^^^ 255) := by
  have hsN : (min s.natAbs 32635 : Nat) ≤ 32635 := min_le_right _ _
  obtain ⟨e, he7, hle, hlt⟩ := msb_exists (min s.natAbs 32635 + 132) (by omega) (by omega)
  have hq1 : 16 ≤ (min s.natAbs 32635 + 132) / 2 ^ (e + 3) := by
    rw [Nat.le_div_iff_mul_le (Nat.two_pow_pos _)]
    calc 16 * 2 ^ (e + 3) = 2 ^ (e + 7) := by rw [pow_add, pow_add]; ring
    _ ≤ min s.natAbs 32635 + 132 := hle
  have hq2 : (min s.natAbs 32635 + 132) / 2 ^ (e + 3) < 32 := by
    rw [Nat.div_lt_iff_lt_mul (Nat.two_pow_pos _)]
    calc min s.natAbs 32635 + 132 < 2 ^ (e + 8) := hlt
    _ = 32 * 2 ^ (e + 3) := by rw [pow_add, pow_add]; ring
  refine ⟨e, (min s.natAbs 32635 + 132) / 2 ^ (e + 3) - 16, he7, by omega, hle, hlt, rfl, ?_⟩
  have hw : wrap16 s = s := wrap16_eq_self s (by omega) (by omega)
  have hbias : wrap16 (((min s.natAbs 32635 : Nat) : Int) + 132)
      = ((min s.natAbs 32635 + 132 : Nat) : Int) := by
    rw [wrap16_eq_self _ (by omega) (by omega)]
    omega
  have hrep : toRep16 ((min s.natAbs 32635 + 132 : Nat) : Int) = min s.natAbs 32635 + 132 := by
    rw [toRep16_eq_toNat _ (by omega) (by omega)]
    exact Int.toNat_natCast _
  have hsearch : expSearch (min s.natAbs 32635 + 132) 0x4000 7 16 = some ((e : Nat) : Int) :=
    (expSearch_msb (e + 7) (min s.natAbs 32635 + 132) hle
      (by rw [show e + 7 + 1 = e + 8 by omega]; exact hlt) (by omega) (by omega)).trans
      (congrArg some (by omega))
  have hguard : ¬ (((e : Nat) : Int) + 3 < 0) := by omega
  have htoNat : (((e : Nat) : Int) + 3).toNat = e + 3 := by omega
  have hsar : sar16 (((min s.natAbs 32635 + 132 : Nat) : Int)) (e + 3)
      = (((min s.natAbs 32635 + 132) / 2 ^ (e + 3) : Nat) : Int) := sar16_coe _ _
  have hrep2 : toRep16 ((((min s.natAbs 32635 + 132) / 2 ^ (e + 3) : Nat) : Int))
      = (min s.natAbs 32635 + 132) / 2 ^ (e + 3) := by
    rw [toRep16_eq_toNat _ (by omega) (by omega)]
    exact Int.toNat_natCast _
  have hand : ((min s.natAbs 32635 + 132) / 2 ^ (e + 3)) &&& 15
      = (min s.natAbs 32635 + 132) / 2 ^ (e + 3) - 16 := by
    rw [and_fifteen _ hq2]
    omega
  have hseg : ((((e : Nat) : Int) * 16) % 256).toNat = e * 16 := by omega
  rcases lt_or_ge s 0 with hneg | hpos2
  · have hnegv : wrap16 (-s) = ((s.natAbs : Int)) := by
      rw [wrap16_eq_self _ (by omega) (by omega)]
      omega
    have hmag : (if ((s.natAbs : Int) > 32635) then (32635 : Int) else (s.natAbs : Int))
        = ((min s.natAbs 32635 : Nat) : Int) := by
      split <;> omega
    simp only [linearToMuLaw, hw]
    rw [if_pos hneg, if_pos (show (128 : Nat) ≠ 0 by decide), hnegv, hmag, hbias, hrep]
    simp only [hsearch, Option.some_bind]
    rw [if_neg hguard, htoNat, hsar, hrep2, hand, hseg]
  · have hmagp : (if (s > 32635) then (32635 : Int) else s)
        = ((min s.natAbs 32635 : Nat) : Int) := by
      split <;> omega
    simp only [linearToMuLaw, hw]
    rw [if_neg (show ¬ s < 0 by omega), if_neg (show ¬ (0 : Nat) ≠ 0 by decide),
      hmagp, hbias, hrep]
    simp only [hsearch, Option.some_bind]
    rw [if_neg hguard, htoNat, hsar, hrep2, hand, hseg]

/-- Decoding a composed mu-law byte recovers the signed rebuilt magnitude. -/
theorem muLawDecode_comp (sg e pos : Nat) (hsg : sg = 0 ∨ sg = 128) (he : e < 8) (hp : pos < 16) :
    muLawDecode ((sg ||| e * 16 ||| pos) ^^^ 255) =
      if sg = 0 then (((pos * 8 + 132) * 2 ^ e : Nat) : Int) - 132
      else 132 - (((pos * 8 + 132) * 2 ^ e : Nat) : Int) := by
  obtain ⟨⟨ha1, ha2, ha3, ha4⟩, hb1, hb2, hb3, hb4⟩ := byteFields e he pos hp
  rcases hsg with h | h <;> subst h
  · have hz : (0 ||| e * 16 ||| pos) = (e * 16 ||| pos) := by
      simp [Nat.zero_or]
    have hlt256 : (e * 16 ||| pos) ^^^ 255 < 256 :=
      Nat.xor_lt_two_pow (n := 8) hb4 (by norm_num)
    have hxor : ((e * 16 ||| pos) ^^^ 255) % 256 ^^^ 255 = e * 16 ||| pos := by
      rw [Nat.mod_eq_of_lt hlt256, Nat.xor_assoc, Nat.xor_self, Nat.xor_zero]
    rw [hz, if_pos rfl]
    simp only [muLawDecode, hxor, hb1, hb2, hb3]
    rw [if_neg (by simp), Nat.shiftLeft_eq]
  · have hlt256 : (128 ||| e * 16 ||| pos) ^^^ 255 < 256 :=
      Nat.xor_lt_two_pow (n := 8) ha4 (by norm_num)
    have hxor : ((128 ||| e * 16 ||| pos) ^^^ 255) % 256 ^^^ 255 = 128 ||| e * 16 ||| pos := by
      rw [Nat.mod_eq_of_lt hlt256, Nat.xor_assoc, Nat.xor_self, Nat.xor_zero]
    rw [if_neg (by norm_num)]
    simp only [muLawDecode, hxor, ha1, ha2, ha3]
    rw [if_pos (by norm_num), Nat.shiftLeft_eq]

/-- Round-trip bound for every input except the overflowing -32768: encoding
then decoding lands within half a quantization step of the clamped magnitude,
so within half a step plus the clipping excess of the original sample. -/
theorem muLaw_roundtrip_bound (s : Int) (h1 : -32768 < s) (h2 : s < 32768) :
    ∃ u e, linearToMuLaw s = some u ∧ e ≤ 7 ∧
      2 ^ (e + 7) ≤ min s.natAbs 32635 + 132 ∧
      min s.natAbs 32635 + 132 < 2 ^ (e + 8) ∧
      (muLawDecode u - s).natAbs ≤ 2 ^ (e + 2) + (s.natAbs - 32635) := by
  obtain ⟨e, pos, he7, hp16, hle, hlt, hposdef, henc⟩ := linearToMuLaw_in_range s h1 h2
  refine ⟨_, e, henc, he7, hle, hlt, ?_⟩
  have hq1 : 16 ≤ (min s.natAbs 32635 + 132) / 2 ^ (e + 3) := by
    rw [Nat.le_div_iff_mul_le (Nat.two_pow_pos _)]
    calc 16 * 2 ^ (e + 3) = 2 ^ (e + 7) := by rw [pow_add, pow_add]; ring
    _ ≤ min s.natAbs 32635 + 132 := hle
  have hdm : ((min s.natAbs 32635 + 132) / 2 ^ (e + 3)) * 2 ^ (e + 3)
      + (min s.natAbs 32635 + 132) % 2 ^ (e + 3) = min s.natAbs 32635 + 132 :=
    Nat.div_add_mod' _ _
  have hrlt : (min s.natAbs 32635 + 132) % 2 ^ (e + 3) < 2 ^ (e + 3) :=
    Nat.mod_lt _ (Nat.two_pow_pos _)
  have h83 : (2 ^ (e + 3) : Nat) = 8 * 2 ^ e := by rw [pow_add]; ring
  have h42 : (2 ^ (e + 2) : Nat) = 4 * 2 ^ e := by rw [pow_add]; ring
  have hkey : (((pos * 8 + 132) * 2 ^ e : Nat) : Int)
      = ((min s.natAbs 32635 + 132 : Nat) : Int)
        - (((min s.natAbs 32635 + 132) % 2 ^ (e + 3) : Nat) : Int)
        + 4 * ((2 ^ e : Nat) : Int) := by
    have hposZ : (pos : Int) = (((min s.natAbs 32635 + 132) / 2 ^ (e + 3) : Nat) : Int) - 16 := by
      omega
    have hdmZ : (((min s.natAbs 32635 + 132) / 2 ^ (e + 3) : Nat) : Int)
        * (8 * ((2 ^ e : Nat) : Int))
        + (((min s.natAbs 32635 + 132) % 2 ^ (e + 3) : Nat) : Int)
        = ((min s.natAbs 32635 + 132 : Nat) : Int) := by
      rw [show (8 : Int) * ((2 ^ e : Nat) : Int) = ((2 ^ (e + 3) : Nat) : Int) by
        rw [h83]; push_cast; ring]
      exact_mod_cast hdm
    push_cast
    push_cast at hposZ hdmZ
    linear_combination (8 * ((2 : Int) ^ e)) * hposZ + hdmZ
  rcases lt_or_ge s 0 with hneg | hpos2
  · rw [muLawDecode_comp _ e pos (by rw [if_pos hneg]; right; rfl) (by omega) hp16,
      if_neg (by rw [if_pos hneg]; norm_num)]
    omega
  · rw [muLawDecode_comp _ e pos (by rw [if_neg (by omega : ¬ s < 0)]; left; rfl)
      (by omega) hp16, if_pos (by rw [if_neg (by omega : ¬ s < 0)])]
    omega

/-- Splitting an empty payload yields no chunks. -/
theorem chunksOf_nil (mtu : Nat) : chunksOf mtu [] = [] := by
  unfold chunksOf
  rcases Nat.eq_zero_or_pos mtu with h | h
  · subst h
    simp
  · rw [List.length_nil, Nat.zero_add, Nat.div_eq_of_lt (by omega)]
    simp

/-- Splitting a nonempty payload takes one MTU-sized chunk and recurses. -/
theorem chunksOf_cons (mtu : Nat) (hm : 0 < mtu) (l : List Nat) (hl : l ≠ []) :
    chunksOf mtu l = l.take mtu :: chunksOf mtu (l.drop mtu) := by
  have hlen : (l.drop mtu).length = l.length - mtu := by simp
  have hne : 0 < l.length := List.length_pos.mpr hl
  have hcount : (l.length + mtu - 1) / mtu = (l.length - mtu + mtu - 1) / mtu + 1 := by
    rcases le_or_lt mtu l.length with h | h
    · rw [show l.length + mtu - 1 = (l.length - mtu + mtu - 1) + mtu by omega,
        Nat.add_div_right _ hm]
    · have h1 : l.length - mtu = 0 := by omega
      have h2 : (l.length + mtu - 1) / mtu = 1 := by
        apply Nat.div_eq_of_lt_le <;> omega
      have h3 : (0 + mtu - 1) / mtu = 0 := Nat.div_eq_of_lt (by omega)
      rw [h1, h2, h3]
  unfold chunksOf
  rw [hlen, hcount, List.range_succ_eq_map]
  simp only [List.map_cons, List.map_map]
  congr 1
  · simp
  · apply List.map_congr_left
    intro k _
    simp only [Function.comp_apply, List.drop_drop]
    congr 2
    rw [Nat.succ_mul]
    ring

/-- The chunk loop terminates with exactly the closed-form chunks whenever
the MTU is positive. -/
theorem chunkLoop_eq (mtu : Nat) (hm : 0 < mtu) : ∀ fuel l, l.length < fuel →
    chunkLoop mtu fuel l = some (chunksOf mtu l) := by
  intro fuel
  induction fuel with
  | zero => intro l h; omega
  | succ fuel ih =>
    intro l hl
    match l with
    | [] => simp [chunkLoop, chunksOf_nil]
    | x :: xs =>
      have hmin : min (x :: xs).length mtu ≤ mtu := min_le_right _ _
      have htake : (x :: xs).take (min (x :: xs).length mtu) = (x :: xs).take mtu := by
        rcases le_total mtu (x :: xs).length with h | h
        · rw [min_eq_right h]
        · rw [min_eq_left h, List.take_of_length_le h, List.take_of_length_le (le_refl _)]
      have hdrop : (x :: xs).drop (min (x :: xs).length mtu) = (x :: xs).drop mtu := by
        rcases le_total mtu (x :: xs).length with h | h
        · rw [min_eq_right h]
        · rw [min_eq_left h, List.drop_of_length_le h, List.drop_of_length_le (le_refl _)]
      rw [chunkLoop]
      simp only [hdrop, htake]
      rw [ih _ (by rw [List.length_drop]; simp only [List.length_cons] at hl ⊢; omega)]
      rw [chunksOf_cons mtu hm _ (List.cons_ne_nil x xs)]
      simp

/-- Concatenating the chunks restores the payload. -/
theorem chunksOf_flatten (mtu : Nat) (hm : 0 < mtu) : ∀ n l, l.length ≤ n →
    (chunksOf mtu l).flatten = l := by
  intro n
  induction n with
  | zero =>
    intro l h
    have h0 : l = [] := List.eq_nil_of_length_eq_zero (by omega)
    subst h0
    rw [chunksOf_nil]
    rfl
  | succ n ih =>
    intro l hl
    rcases eq_or_ne l [] with rfl | hne
    · rw [chunksOf_nil]; rfl
    · rw [chunksOf_cons mtu hm l hne, List.flatten_cons,
        ih (l.drop mtu) (by rw [List.length_drop]; have := List.length_pos.mpr hne; omega)]
      exact List.take_append_drop mtu l

/-- Every chunk is at most MTU bytes. -/
theorem chunksOf_le (mtu : Nat) (l : List Nat) : ∀ c ∈ chunksOf mtu l, c.length ≤ mtu := by
  intro c hc
  unfold chunksOf at hc
  rw [List.mem_map] at hc
  obtain ⟨k, _, rfl⟩ := hc
  rw [List.length_take]
  exact min_le_left _ _

/-- With an even MTU and an even payload, every chunk has even length. -/
theorem chunksOf_even (mtu : Nat) (l : List Nat) (hm : 2 ∣ mtu) (hl : 2 ∣ l.length) :
    ∀ c ∈ chunksOf mtu l, 2 ∣ c.length := by
  intro c hc
  unfold chunksOf at hc
  rw [List.mem_map] at hc
  obtain ⟨k, _, rfl⟩ := hc
  rw [List.length_take, List.length_drop]
  rcases min_choice mtu (l.length - k * mtu) with h | h <;> rw [h]
  · exact hm
  · have hkm : 2 ∣ k * mtu := Dvd.dvd.mul_left hm k
    omega

/-- Every chunk boundary is at an even offset when MTU and payload length are
even: the flattened length of every chunk prefix is even. -/
theorem chunksOf_boundary_even (mtu : Nat) (l : List Nat) (hm : 2 ∣ mtu) (hl : 2 ∣ l.length)
    (k : Nat) : 2 ∣ (((chunksOf mtu l).take k).flatten).length := by
  rw [List.length_flatten]
  apply List.dvd_sum
  intro x hx
  rw [List.mem_map] at hx
  obtain ⟨c, hc, rfl⟩ := hx
  exact chunksOf_even mtu l hm hl c (List.mem_of_mem_take hc)

/-- A stream shorter than one frame delivers no frames. -/
theorem framesOf_small (d : Nat) (l : List Nat) (h : l.length < d) : framesOf d l = [] := by
  unfold framesOf
  rw [Nat.div_eq_of_lt h]
  simp

/-- A stream with at least one full frame delivers it and recurses. -/
theorem framesOf_cons (d : Nat) (hd : 0 < d) (l : List Nat) (hl : d ≤ l.length) :
    framesOf d l = l.take d :: framesOf d (l.drop d) := by
  have hlen : (l.drop d).length = l.length - d := by simp
  have hcount : l.length / d = (l.length - d) / d + 1 := by
    conv_lhs => rw [show l.length = (l.length - d) + d by omega]
    rw [Nat.add_div_right _ hd]
  unfold framesOf
  rw [hlen, hcount, List.range_succ_eq_map]
  simp only [List.map_cons, List.map_map]
  congr 1
  · simp
  · apply List.map_congr_left
    intro k _
    simp only [Function.comp_apply, List.drop_drop]
    congr 2
    rw [Nat.succ_mul]
    ring

/-- The read loop terminates with exactly the closed-form frames and the
stream-end kind it was given, whenever the frame size is positive. -/
theorem readLoopF_eq (d : Nat) (hd : 0 < d) (endk : EndKind) : ∀ fuel l, l.length < fuel →
    readLoopF d endk fuel l = some (framesOf d l, endk) := by
  intro fuel
  induction fuel with
  | zero => intro l h; omega
  | succ fuel ih =>
    intro l hl
    rw [readLoopF]
    rw [if_neg (by omega)]
    rcases le_or_lt d l.length with h | h
    · rw [if_pos h, ih (l.drop d) (by rw [List.length_drop]; omega),
        framesOf_cons d hd l h]
    · rw [if_neg (by omega), framesOf_small d l h]

/-- The frame reader on any finite stream. -/
theorem readLoop_eq (d : Nat) (hd : 0 < d) (endk : EndKind) (l : List Nat) :
    readLoop d endk l = some (framesOf d l, endk) :=
  readLoopF_eq d hd endk (l.length + 1) l (by omega)

/-- Every delivered frame is exactly one frame of bytes. -/
theorem framesOf_full (d : Nat) (hd : 0 < d) (l : List Nat) :
    ∀ f ∈ framesOf d l, f.length = d := by
  intro f hf
  unfold framesOf at hf
  rw [List.mem_map] at hf
  obtain ⟨k, hk, rfl⟩ := hf
  rw [List.mem_range] at hk
  have hmul : (k + 1) * d ≤ l.length := (Nat.le_div_iff_mul_le hd).mp hk
  rw [Nat.add_one_mul] at hmul
  rw [List.length_take, List.length_drop]
  omega

/-- The number of delivered frames. -/
theorem framesOf_length (d : Nat) (l : List Nat) : (framesOf d l).length = l.length / d := by
  unfold framesOf
  rw [List.length_map, List.length_range]

/-- The delivered frames concatenate to the full-frame prefix of the stream. -/
theorem framesOf_flatten (d : Nat) (hd : 0 < d) : ∀ n l, l.length ≤ n →
    (framesOf d l).flatten = l.take (l.length / d * d) := by
  intro n
  induction n with
  | zero =>
    intro l h
    have h0 : l = [] := List.eq_nil_of_length_eq_zero (by omega)
    subst h0
    simp [framesOf]
  | succ n ih =>
    intro l hl
    rcases le_or_lt d l.length with h | h
    · rw [framesOf_cons d hd l h, List.flatten_cons,
        ih (l.drop d) (by rw [List.length_drop]; omega)]
      have hcount : l.length / d = (l.length - d) / d + 1 := by
        conv_lhs => rw [show l.length = (l.length - d) + d by omega]
        rw [Nat.add_div_right _ hd]
      rw [List.length_drop, hcount, Nat.add_one_mul, ← List.take_add]
      congr 1
      omega
    · rw [framesOf_small d l h, Nat.div_eq_of_lt h]
      simp

/-- The sequence numbers of one frame of packets count up from the running
counter, reduced modulo 2^16. -/
theorem packetizeChunks_map_seq (ssrc pt ts : Nat) : ∀ (cs : List (List Nat)) (s0 : Nat),
    (packetizeChunks ssrc pt ts s0 cs).map RTPPacket.seqNum
      = (List.range cs.length).map (fun i => (s0 + i) % 65536) := by
  intro cs
  induction cs with
  | nil => intro s0; rfl
  | cons c cs ih =>
    intro s0
    rw [packetizeChunks]
    simp only [List.map_cons, List.length_cons, List.range_succ_eq_map, List.map_map]
    congr 1
    rw [ih (s0 + 1)]
    apply List.map_congr_left
    intro i _
    simp only [Function.comp_apply, Nat.succ_eq_add_one]
    congr 1
    omega

/-- One frame of packets carries one packet per chunk. -/
theorem packetizeChunks_length (ssrc pt ts : Nat) : ∀ (cs : List (List Nat)) (s0 : Nat),
    (packetizeChunks ssrc pt ts s0 cs).length = cs.length := by
  intro cs
  induction cs with
  | nil => intro s0; rfl
  | cons c cs ih =>
    intro s0
    rw [packetizeChunks]
    simp only [List.length_cons, ih]

/-- The payloads of one frame of packets are exactly the chunks, in order. -/
theorem packetizeChunks_map_payload (ssrc pt ts : Nat) : ∀ (cs : List (List Nat)) (s0 : Nat),
    (packetizeChunks ssrc pt ts s0 cs).map RTPPacket.payload = cs := by
  intro cs
  induction cs with
  | nil => intro s0; rfl
  | cons c cs ih =>
    intro s0
    rw [packetizeChunks]
    simp only [List.map_cons, ih]

/-- Every packet of one frame carries the frame timestamp, the session
payload type and the session sync-source id. -/
theorem packetizeChunks_mem (ssrc pt ts : Nat) : ∀ (cs : List (List Nat)) (s0 : Nat),
    ∀ p ∈ packetizeChunks ssrc pt ts s0 cs,
      p.timestamp = ts % 4294967296 ∧ p.payloadType = pt ∧ p.ssrc = ssrc % 4294967296 := by
  intro cs
  induction cs with
  | nil => intro s0 p hp; cases hp
  | cons c cs ih =>
    intro s0 p hp
    rw [packetizeChunks, List.mem_cons] at hp
    rcases hp with rfl | hp
    · exact ⟨rfl, rfl, rfl⟩
    · exact ih (s0 + 1) p hp

/-- The packetizer emits one packet group per frame. -/
theorem packetizeFramesG_length (ssrc pt samples : Nat) : ∀ (l : List (List (List Nat))) (s0 t0 : Nat),
    (packetizeFramesG ssrc pt samples s0 t0 l).length = l.length := by
  intro l
  induction l with
  | nil => intro s0 t0; rfl
  | cons chunks rest ih =>
    intro s0 t0
    rw [packetizeFramesG]
    simp only [List.length_cons, ih]

/-- The sequence numbers of the whole emitted packet stream are the
contiguous run from the initial counter, reduced modulo 2^16. -/
theorem packetizeFramesG_flatten_seq (ssrc pt samples : Nat) :
    ∀ (l : List (List (List Nat))) (s0 t0 : Nat),
    ((packetizeFramesG ssrc pt samples s0 t0 l).flatten).map RTPPacket.seqNum
      = (List.range ((l.map List.length).sum)).map (fun i => (s0 + i) % 65536) := by
  intro l
  induction l with
  | nil => intro s0 t0; rfl
  | cons chunks rest ih =>
    intro s0 t0
    rw [packetizeFramesG, List.flatten_cons, List.map_append, packetizeChunks_map_seq,
      ih (s0 + chunks.length) (t0 + samples), List.map_cons, List.sum_cons, List.range_add,
      List.map_append, List.map_map]
    congr 1
    apply List.map_congr_left
    intro i _
    simp only [Function.comp_apply]
    congr 1
    omega

/-- The payloads of the whole emitted packet stream are the chunks of all
frames, in order. -/
theorem packetizeFramesG_flatten_payload (ssrc pt samples : Nat) :
    ∀ (l : List (List (List Nat))) (s0 t0 : Nat),
    ((packetizeFramesG ssrc pt samples s0 t0 l).flatten).map RTPPacket.payload = l.flatten := by
  intro l
  induction l with
  | nil => intro s0 t0; rfl
  | cons chunks rest ih =>
    intro s0 t0
    rw [packetizeFramesG, List.flatten_cons, List.map_append, packetizeChunks_map_payload,
      ih (s0 + chunks.length) (t0 + samples), List.flatten_cons]

/-- The packet group of frame `j` is the packetization of the chunks of frame
`j` at the frame timestamp `t0 + j * samples` and the accumulated sequence
counter. -/
theorem packetizeFramesG_getD (ssrc pt samples : Nat) :
    ∀ (l : List (List (List Nat))) (s0 t0 j : Nat),
    (packetizeFramesG ssrc pt samples s0 t0 l).getD j []
      = packetizeChunks ssrc pt (t0 + j * samples)
          (s0 + ((l.take j).map List.length).sum) (l.getD j []) := by
  intro l
  induction l with
  | nil =>
    intro s0 t0 j
    simp [packetizeFramesG, packetizeChunks]
  | cons chunks rest ih =>
    intro s0 t0 j
    match j with
    | 0 => simp [packetizeFramesG]
    | j + 1 =>
      rw [packetizeFramesG]
      simp only [List.getD_cons_succ, List.take_succ_cons, List.map_cons, List.sum_cons]
      rw [ih (s0 + chunks.length) (t0 + samples) j]
      congr 1
      · ring
      · omega

/-- The receiver decodes one sample per byte pair. -/
theorem decodeSamples_length : ∀ l : List Nat, (decodeSamples l).length = l.length / 2
  | [] => rfl
  | [x] => by
    show ([] : List Int).length = [x].length / 2
    simp
  | _ :: _ :: rest => by
    simp only [decodeSamples, List.length_cons]
    rw [decodeSamples_length rest]
    omega

/-- The k-th decoded sample is the big-endian signed 16-bit integer built
from payload bytes 2k and 2k+1. -/
theorem decodeSamples_getD : ∀ (l : List Nat) (k : Nat), 2 * k + 1 < l.length →
    (decodeSamples l).getD k 0
      = wrap16 ((l.getD (2 * k) 0 % 256 : Int) * 256 + (l.getD (2 * k + 1) 0 % 256 : Int))
  | [], k, h => by simp at h
  | [_], k, h => by simp at h
  | hi :: lo :: rest, 0, h => rfl
  | hi :: lo :: rest, k + 1, h => by
    have h1 : 2 * (k + 1) = 2 * k + 1 + 1 := by ring
    have h2 : 2 * (k + 1) + 1 = 2 * k + 1 + 1 + 1 := by ring
    simp only [decodeSamples, List.getD_cons_succ, h1, h2]
    exact decodeSamples_getD rest k (by simp only [List.length_cons] at h; omega)

/-- Decoding distributes over concatenation at even boundaries. -/
theorem decodeSamples_append : ∀ l1 l2 : List Nat, 2 ∣ l1.length →
    decodeSamples (l1 ++ l2) = decodeSamples l1 ++ decodeSamples l2
  | [], l2, _ => rfl
  | [_], l2, h => by simp at h
  | hi :: lo :: rest, l2, h => by
    simp only [List.cons_append, decodeSamples]
    exact congrArg _
      (decodeSamples_append rest l2 (by simp only [List.length_cons] at h ⊢; omega))

/-- Decoding a run of zero bytes yields a run of zero samples. -/
theorem decodeSamples_replicate : ∀ n : Nat,
    decodeSamples (List.replicate (2 * n) 0) = List.replicate n 0
  | 0 => rfl
  | n + 1 => by
    rw [show 2 * (n + 1) = 2 * n + 1 + 1 by ring, List.replicate_succ, List.replicate_succ]
    show decodeSamples (0 :: 0 :: List.replicate (2 * n) 0) = _
    simp only [decodeSamples]
    rw [decodeSamples_replicate n, List.replicate_succ]
    norm_num [wrap16]

/-- Appending a fresh entry does not change the lookup of other keys. -/
theorem lookupPeer_append_other : ∀ (m : List (Nat × List Int)) (a b : Nat) (v : List Int),
    b ≠ a → lookupPeer (m ++ [(a, v)]) b = lookupPeer m b
  | [], a, b, v, h => by
    simp only [List.nil_append, lookupPeer]
    rw [if_neg (fun hh => h hh.symm)]
  | (k, w) :: rest, a, b, v, h => by
    simp only [List.cons_append, lookupPeer]
    split
    · rfl
    · exact lookupPeer_append_other rest a b v h

/-- Appending a fresh entry for an absent key makes that key resolve to it. -/
theorem lookupPeer_append_self : ∀ (m : List (Nat × List Int)) (a : Nat) (v : List Int),
    lookupPeer m a = none → lookupPeer (m ++ [(a, v)]) a = some v
  | [], a, v, _ => by
    simp only [List.nil_append, lookupPeer]
    simp
  | (k, w) :: rest, a, v, h => by
    simp only [lookupPeer] at h
    simp only [List.cons_append, lookupPeer]
    split
    · rename_i hk
      rw [if_pos hk] at h
      cases h
    · rename_i hk
      rw [if_neg hk] at h
      exact lookupPeer_append_self rest a v h

/-- Appending samples to a present peer extends exactly its container. -/
theorem lookupPeer_appendPeer_self : ∀ (m : List (Nat × List Int)) (a : Nat)
    (s v : List Int), lookupPeer m a = some v →
    lookupPeer (appendPeer m a s) a = some (v ++ s)
  | [], a, s, v, h => by cases h
  | (k, w) :: rest, a, s, v, h => by
    simp only [lookupPeer] at h
    simp only [appendPeer]
    split
    · rename_i hk
      rw [if_pos hk] at h
      cases h
      simp only [lookupPeer]
      rw [if_pos hk]
    · rename_i hk
      rw [if_neg hk] at h
      simp only [lookupPeer]
      rw [if_neg hk]
      exact lookupPeer_appendPeer_self rest a s v h

/-- Appending samples to one peer leaves every other container unchanged. -/
theorem lookupPeer_appendPeer_other : ∀ (m : List (Nat × List Int)) (a b : Nat)
    (s : List Int), b ≠ a → lookupPeer (appendPeer m a s) b = lookupPeer m b
  | [], a, b, s, h => rfl
  | (k, w) :: rest, a, b, s, h => by
    simp only [appendPeer, lookupPeer]
    split
    · rename_i hk
      simp only [lookupPeer]
      rw [if_neg (by omega), if_neg (by omega)]
    · simp only [lookupPeer]
      split
      · rfl
      · exact lookupPeer_appendPeer_other rest a b s h

/-- Processing a packet from address `a` extends the container of `a` by the
decoded payload, creating the container on first sight. -/
theorem processPacket_lookup_self (m : List (Nat × List Int)) (a : Nat) (p : RTPPacket) :
    lookupPeer (processPacket m a p) a
      = some ((lookupPeer m a).getD [] ++ decodeSamples p.payload) := by
  unfold processPacket
  rcases hl : lookupPeer m a with _ | v
  · have h1 : lookupPeer (m ++ [(a, [])]) a = some [] := lookupPeer_append_self m a [] hl
    simp only [hl, Option.isSome_none, Bool.false_eq_true, if_false]
    split
    · rename_i hz
      have hz2 : decodeSamples p.payload = [] :=
        List.eq_nil_of_length_eq_zero (by rw [decodeSamples_length]; omega)
      rw [h1, hz2]
      simp
    · rw [lookupPeer_appendPeer_self _ _ _ _ h1]
      simp
  · simp only [hl, Option.isSome_some, if_true]
    split
    · rename_i hz
      have hz2 : decodeSamples p.payload = [] :=
        List.eq_nil_of_length_eq_zero (by rw [decodeSamples_length]; omega)
      rw [hl, hz2]
      simp
    · rw [lookupPeer_appendPeer_self _ _ _ _ hl]
      simp

/-- Processing a packet from one address leaves other containers unchanged. -/
theorem processPacket_lookup_other (m : List (Nat × List Int)) (a b : Nat) (p : RTPPacket)
    (h : b ≠ a) : lookupPeer (processPacket m a p) b = lookupPeer m b := by
  simp only [processPacket]
  split
  · split
    · rfl
    · exact lookupPeer_append_other m a b [] h
  · rw [lookupPeer_appendPeer_other _ _ _ _ h]
    split
    · rfl
    · exact lookupPeer_append_other m a b [] h

/-- Full characterization of the receiver loop: after any sequence of
datagrams, the container of an address holds the prior samples followed by
exactly the decoded payloads of the valid packets from that address, in
arrival order, and exists only once a valid packet from the address has been
seen. -/
theorem receiverRun_lookup : ∀ (ds : List (Nat × List Nat)) (m : List (Nat × List Int)) (a : Nat),
    lookupPeer (receiverRun m ds) a =
      match lookupPeer m a with
      | some s => some (s ++ collected ds a)
      | none => if seenValid ds a then some (collected ds a) else none := by
  intro ds
  induction ds with
  | nil =>
    intro m a
    simp only [receiverRun, List.foldl_nil, collected, seenValid, List.filter_nil,
      List.map_nil, List.flatten_nil, List.any_nil, Bool.false_eq_true, if_false]
    split
    · rename_i s hs
      rw [hs, List.append_nil]
    · rename_i hs
      rw [hs]
  | cons d ds ih =>
    intro m a
    obtain ⟨b, bytes⟩ := d
    have hstep : receiverRun m ((b, bytes) :: ds) = receiverRun (receiverStep m (b, bytes)) ds := by
      simp [receiverRun]
    rcases hparse : parseRTP bytes with _ | p
    · have hskip : receiverStep m (b, bytes) = m := by
        simp [receiverStep, hparse]
      have hcol : collected ((b, bytes) :: ds) a = collected ds a := by
        simp [collected, hparse]
      have hseen : seenValid ((b, bytes) :: ds) a = seenValid ds a := by
        simp [seenValid, hparse]
      rw [hstep, hskip, ih, hcol, hseen]
    · by_cases hba : b = a
      · subst hba
        have hcol : collected ((b, bytes) :: ds) b = decodeSamples p.payload ++ collected ds b := by
          simp [collected, hparse]
        have hseen : seenValid ((b, bytes) :: ds) b = true := by
          simp [seenValid, hparse]
        have hproc : receiverStep m (b, bytes) = processPacket m b p := by
          simp [receiverStep, hparse]
        rw [hstep, hproc, ih, processPacket_lookup_self, hcol, hseen]
        rcases hl : lookupPeer m b with _ | v
        · simp only [hl, Option.getD_none, List.nil_append, if_true]
        · simp only [hl, Option.getD_some, List.append_assoc]
      · have hbeq : (b == a) = false := beq_eq_false_iff_ne.mpr hba
        have hcol : collected ((b, bytes) :: ds) a = collected ds a := by
          simp [collected, List.filter_cons, hbeq]
        have hseen : seenValid ((b, bytes) :: ds) a = seenValid ds a := by
          simp [seenValid, hbeq]
        have hproc : receiverStep m (b, bytes) = processPacket m b p := by
          simp [receiverStep, hparse]
        rw [hstep, hproc, ih, processPacket_lookup_other m b a p (Ne.symm hba), hcol, hseen]

/-- Wire round trip: parsing a marshalled packet with in-range header fields
reads back the packet. -/
theorem parseRTP_marshalRTP (p : RTPPacket) (h1 : p.seqNum < 65536)
    (h2 : p.timestamp < 4294967296) (h3 : p.ssrc < 4294967296) (h4 : p.payloadType < 128) :
    parseRTP (marshalRTP p) = some p := by
  obtain ⟨sq, ts, sc, pt, pl⟩ := p
  simp only at h1 h2 h3 h4
  simp only [marshalRTP, List.cons_append, List.nil_append]
  rw [parseRTP]
  rw [if_neg (by decide)]
  simp only [Option.some.injEq, RTPPacket.mk.injEq]
  refine ⟨by omega, by omega, by omega, by omega, trivial⟩

/-- Mapping a constant function over a range replicates the constant. -/
theorem map_const_range (q : Nat) (c : List Nat) :
    (List.range q).map (fun _ => c) = List.replicate q c := by
  induction q with
  | zero => rfl
  | succ q ih =>
    rw [List.range_succ, List.map_append, ih, List.map_cons, List.map_nil,
      List.replicate_succ']

/-- Framing a silent stream of whole frames yields that many silent frames. -/
theorem framesOf_replicate (d n q : Nat) (hd : 0 < d) (hq : n = q * d) :
    framesOf d (List.replicate n (0 : Nat)) = List.replicate q (List.replicate d 0) := by
  unfold framesOf
  rw [List.length_replicate, hq, Nat.mul_div_cancel _ hd, ← map_const_range q]
  apply List.map_congr_left
  intro k hk
  rw [List.mem_range] at hk
  rw [List.drop_replicate, List.take_replicate]
  congr 1
  have hmul : (k + 1) * d ≤ q * d := Nat.mul_le_mul_right d (by omega)
  rw [Nat.add_one_mul] at hmul
  omega

/-- Mapping a monadic function with a fixed successful value over a
replicated list succeeds with the replicated value. -/
theorem mapM_replicate (f : List Nat → Option (List (List Nat))) (a : List Nat)
    (b : List (List Nat)) (hf : f a = some b) :
    ∀ n, (List.replicate n a).mapM f = some (List.replicate n b)
  | 0 => rfl
  | n + 1 => by
    rw [List.replicate_succ, List.replicate_succ]
    simp only [List.mapM_cons, hf, mapM_replicate f a b hf n, Option.bind_eq_bind,
      Option.some_bind, Option.pure_def]

/-- One silent L16 frame splits into two full chunks and one 840-byte tail. -/
theorem pcm_payload_silent_frame :
    pcmPayloaderPayload mtuL16 (List.replicate 3840 (0 : Nat))
      = some [List.replicate 1500 0, List.replicate 1500 0, List.replicate 840 0] := by
  unfold pcmPayloaderPayload
  rw [chunkLoop_eq mtuL16 (by decide) _ _ (by omega), Option.some.injEq]
  unfold chunksOf
  rw [List.length_replicate, show (3840 + mtuL16 - 1) / mtuL16 = 3 by decide,
    show List.range 3 = [0, 1, 2] by decide]
  simp only [List.map_cons, List.map_nil, List.drop_replicate, List.take_replicate]
  norm_num [mtuL16]

/-- Decoding all chunks of the silent frames gives the silent samples. -/
theorem decode_silent_chunks : ∀ n : Nat,
    (((List.replicate n [List.replicate 1500 (0 : Nat), List.replicate 1500 0,
        List.replicate 840 0]).flatten.map decodeSamples).flatten)
      = List.replicate (n * 1920) 0
  | 0 => rfl
  | n + 1 => by
    rw [List.replicate_succ, List.flatten_cons, List.map_append, List.flatten_append,
      decode_silent_chunks n]
    have h1 : decodeSamples (List.replicate 1500 (0 : Nat)) = List.replicate 750 0 := by
      have := decodeSamples_replicate 750
      norm_num at this
      exact this
    have h2 : decodeSamples (List.replicate 840 (0 : Nat)) = List.replicate 420 0 := by
      have := decodeSamples_replicate 420
      norm_num at this
      exact this
    simp only [List.map_cons, List.map_nil, h1, h2, List.flatten_cons, List.flatten_nil,
      List.append_nil]
    rw [← List.replicate_add, ← List.replicate_add, ← List.replicate_add]
    congr 1
    ring

/-- The collected samples of a stream of marshalled packets from one address
are the concatenated decoded payloads. -/
theorem collected_mapped (addr : Nat) : ∀ (pks : List RTPPacket),
    (∀ pk ∈ pks, parseRTP (marshalRTP pk) = some pk) →
    collected (pks.map (fun pk => (addr, marshalRTP pk))) addr
      = (pks.map (fun pk => decodeSamples pk.payload)).flatten := by
  intro pks
  induction pks with
  | nil => intro _; rfl
  | cons pk pks ih =>
    intro h
    have hpk : parseRTP (marshalRTP pk) = some pk := h pk (List.mem_cons_self pk pks)
    have hrest : ∀ q ∈ pks, parseRTP (marshalRTP q) = some q :=
      fun q hq => h q (List.mem_cons_of_mem pk hq)
    simp only [List.map_cons, collected, List.filter_cons, hpk, Option.isSome_some,
      beq_self_eq_true, Bool.and_self, if_true]
    simp only [collected] at ih
    rw [List.flatten_cons, ih hrest, List.flatten_cons]

/-- A nonempty stream of marshalled packets from an address marks the address
as seen. -/
theorem seenValid_mapped (addr : Nat) (pk : RTPPacket) (pks : List RTPPacket)
    (hpk : parseRTP (marshalRTP pk) = some pk) :
    seenValid ((pk :: pks).map (fun q => (addr, marshalRTP q))) addr = true := by
  simp [seenValid, hpk]

/-- Every packet of one frame has in-range wire header fields. -/
theorem packetizeChunks_bounds (ssrc pt ts : Nat) : ∀ (cs : List (List Nat)) (s0 : Nat),
    ∀ p ∈ packetizeChunks ssrc pt ts s0 cs,
      p.seqNum < 65536 ∧ p.timestamp < 4294967296 ∧ p.ssrc < 4294967296
        ∧ p.payloadType = pt := by
  intro cs
  induction cs with
  | nil => intro s0 p hp; cases hp
  | cons c cs ih =>
    intro s0 p hp
    rw [packetizeChunks, List.mem_cons] at hp
    rcases hp with rfl | hp
    · exact ⟨Nat.mod_lt _ (by norm_num), Nat.mod_lt _ (by norm_num),
        Nat.mod_lt _ (by norm_num), rfl⟩
    · exact ih (s0 + 1) p hp

/-- Every emitted packet has in-range wire header fields. -/
theorem packetizeFramesG_bounds (ssrc pt samples : Nat) :
    ∀ (l : List (List (List Nat))) (s0 t0 : Nat),
    ∀ p ∈ (packetizeFramesG ssrc pt samples s0 t0 l).flatten,
      p.seqNum < 65536 ∧ p.timestamp < 4294967296 ∧ p.ssrc < 4294967296
        ∧ p.payloadType = pt := by
  intro l
  induction l with
  | nil => intro s0 t0 p hp; cases hp
  | cons chunks rest ih =>
    intro s0 t0 p hp
    rw [packetizeFramesG, List.flatten_cons, List.mem_append] at hp
    rcases hp with hp | hp
    · exact packetizeChunks_bounds ssrc pt t0 chunks s0 p hp
    · exact ih (s0 + chunks.length) (t0 + samples) p hp

/-- Frame buffer size of the L16 sender evaluates to 3840 bytes. -/
theorem bufferSizeL16_eq : bufferSizeL16 = 3840 := by decide

/-- The sum of a replicated list of naturals. -/
theorem sum_replicate_nat : ∀ (n x : Nat), (List.replicate n x).sum = n * x
  | 0, _ => by simp
  | n + 1, x => by
    rw [List.replicate_succ, List.sum_cons, sum_replicate_nat n x]
    ring

/-- The chunk counts of the 25 silent frames sum to 75. -/
theorem silent_chunks_sum :
    ((List.replicate 25 [List.replicate 1500 (0 : Nat), List.replicate 1500 0,
      List.replicate 840 0]).map List.length).sum = 75 := by
  rw [List.map_replicate, sum_replicate_nat]
  norm_num

/-- Full account of the L16 sender and the receiver on one second of 48 kHz
mono 16-bit silence (96000 zero bytes): 25 frames, 75 packets, contiguous
sequence numbers, per-frame timestamps, one sync-source id, and 48000
reconstructed silent samples. -/
theorem l16_silence_master (ssrc s0 t0 : Nat) :
    ∃ groups : List (List RTPPacket),
      l16SenderPackets ssrc s0 t0 (List.replicate 96000 0) EndKind.cleanEOF = some groups ∧
      groups.length = 25 ∧
      groups.flatten.length = 75 ∧
      groups.flatten.map RTPPacket.seqNum = (List.range 75).map (fun i => (s0 + i) % 65536) ∧
      (∀ j : Nat, ∀ pk ∈ groups.getD j [],
        pk.timestamp = (t0 + j * samplesPerFrameL16) % 4294967296
          ∧ pk.payloadType = payloadTypeL16 ∧ pk.ssrc = ssrc % 4294967296) ∧
      ∀ addr : Nat,
        lookupPeer (receiverRun []
            (groups.flatten.map (fun pk => (addr, marshalRTP pk)))) addr
          = some (List.replicate 48000 0) := by
  have hframes : readLoop bufferSizeL16 EndKind.cleanEOF (List.replicate 96000 0)
      = some (List.replicate 25 (List.replicate 3840 0), EndKind.cleanEOF) := by
    rw [readLoop_eq bufferSizeL16 (by decide) EndKind.cleanEOF (List.replicate 96000 0),
      framesOf_replicate bufferSizeL16 96000 25 (by decide) (by decide), bufferSizeL16_eq]
  have hmapM : (List.replicate 25 (List.replicate 3840 (0 : Nat))).mapM
      (fun f => pcmPayloaderPayload mtuL16 f)
      = some (List.replicate 25
          [List.replicate 1500 0, List.replicate 1500 0, List.replicate 840 0]) :=
    mapM_replicate _ _ _ pcm_payload_silent_frame 25
  refine ⟨packetizeFramesG ssrc payloadTypeL16 samplesPerFrameL16 s0 t0
    (List.replicate 25 [List.replicate 1500 0, List.replicate 1500 0, List.replicate 840 0]),
    ?_, ?_, ?_, ?_, ?_, ?_⟩
  · unfold l16SenderPackets
    rw [hframes, Option.some_bind]
    simp only [hmapM, Option.map_some']
  · rw [packetizeFramesG_length, List.length_replicate]
  · have hseq := packetizeFramesG_flatten_seq ssrc payloadTypeL16 samplesPerFrameL16
      (List.replicate 25 [List.replicate 1500 0, List.replicate 1500 0, List.replicate 840 0])
      s0 t0
    rw [silent_chunks_sum] at hseq
    have hlen := congrArg List.length hseq
    rw [List.length_map, List.length_map, List.length_range] at hlen
    exact hlen
  · have hseq := packetizeFramesG_flatten_seq ssrc payloadTypeL16 samplesPerFrameL16
      (List.replicate 25 [List.replicate 1500 0, List.replicate 1500 0, List.replicate 840 0])
      s0 t0
    rw [silent_chunks_sum] at hseq
    exact hseq
  · intro j pk hpk
    rw [packetizeFramesG_getD] at hpk
    exact packetizeChunks_mem ssrc payloadTypeL16 (t0 + j * samplesPerFrameL16) _ _ pk hpk
  · intro addr
    have hvalid : ∀ pk ∈ (packetizeFramesG ssrc payloadTypeL16 samplesPerFrameL16 s0 t0
        (List.replicate 25 [List.replicate 1500 0, List.replicate 1500 0,
          List.replicate 840 0])).flatten, parseRTP (marshalRTP pk) = some pk := by
      intro pk hpk
      obtain ⟨hb1, hb2, hb3, hb4⟩ := packetizeFramesG_bounds ssrc payloadTypeL16
        samplesPerFrameL16 _ s0 t0 pk hpk
      exact parseRTP_marshalRTP pk hb1 hb2 hb3 (by rw [hb4]; decide)
    have hlen75 : (packetizeFramesG ssrc payloadTypeL16 samplesPerFrameL16 s0 t0
        (List.replicate 25 [List.replicate 1500 0, List.replicate 1500 0,
          List.replicate 840 0])).flatten.length = 75 := by
      have hseq := packetizeFramesG_flatten_seq ssrc payloadTypeL16 samplesPerFrameL16
        (List.replicate 25 [List.replicate 1500 0, List.replicate 1500 0, List.replicate 840 0])
        s0 t0
      rw [silent_chunks_sum] at hseq
      have hlen := congrArg List.length hseq
      rw [List.length_map, List.length_map, List.length_range] at hlen
      exact hlen
    rw [receiverRun_lookup]
    show (if seenValid ((packetizeFramesG ssrc payloadTypeL16 samplesPerFrameL16 s0 t0
        (List.replicate 25 [List.replicate 1500 0, List.replicate 1500 0,
          List.replicate 840 0])).flatten.map (fun pk => (addr, marshalRTP pk))) addr = true
      then some (collected ((packetizeFramesG ssrc payloadTypeL16 samplesPerFrameL16 s0 t0
        (List.replicate 25 [List.replicate 1500 0, List.replicate 1500 0,
          List.replicate 840 0])).flatten.map (fun pk => (addr, marshalRTP pk))) addr)
      else none) = some (List.replicate 48000 0)
    obtain ⟨pk0, rest, hcons⟩ : ∃ pk0 rest,
        (packetizeFramesG ssrc payloadTypeL16 samplesPerFrameL16 s0 t0
          (List.replicate 25 [List.replicate 1500 0, List.replicate 1500 0,
            List.replicate 840 0])).flatten = pk0 :: rest := by
      rcases hc : (packetizeFramesG ssrc payloadTypeL16 samplesPerFrameL16 s0 t0
        (List.replicate 25 [List.replicate 1500 0, List.replicate 1500 0,
          List.replicate 840 0])).flatten with _ | ⟨pk0, rest⟩
      · rw [hc] at hlen75
        simp at hlen75
      · exact ⟨pk0, rest, rfl⟩
    have hseen : seenValid ((packetizeFramesG ssrc payloadTypeL16 samplesPerFrameL16 s0 t0
        (List.replicate 25 [List.replicate 1500 0, List.replicate 1500 0,
          List.replicate 840 0])).flatten.map (fun pk => (addr, marshalRTP pk))) addr
        = true := by
      rw [hcons]
      exact seenValid_mapped addr pk0 rest
        (hvalid pk0 (by rw [hcons]; exact List.mem_cons_self pk0 rest))
    rw [if_pos hseen, collected_mapped addr _ hvalid]
    have hpay := packetizeFramesG_flatten_payload ssrc payloadTypeL16 samplesPerFrameL16
      (List.replicate 25 [List.replicate 1500 0, List.replicate 1500 0, List.replicate 840 0])
      s0 t0
    rw [show (fun pk => decodeSamples pk.payload)
        = (decodeSamples ∘ RTPPacket.payload) from rfl, ← List.map_map, hpay,
      decode_silent_chunks 25]

/-- C1: the claim states that `linearToMuLaw` computes the specified G.711
compression exactly for every 16-bit sample, in particular clamping the
magnitude of -32768 to 32635. The code disagrees at -32768: the Go `int16`
negation overflows back to -32768, the clamp comparison fails, and after the
bias the only low set bit is the bias bit, so the encoder emits byte 0x7F
(decoding to 0) where the specified algorithm (`muLawRef`) emits 0x00
(decoding to -32124). This theorem evaluates both at the failing input. -/
theorem c1_mulaw_minus32768 :
    linearToMuLaw (-32768) = some 127 ∧ muLawRef (-32768) = 0 ∧ (127 : Nat) ≠ 0 := by
  decide

/-- C2: for every sequence of frames, each given to the packetizer as its
list of payload chunks, the sequence numbers of all emitted packets form the
contiguous increasing run modulo 2^16 from the initial sequencer value — one
step per packet, no gaps, no repeats, across the fragments of a frame and
across frames. -/
theorem c2_seq_contiguous (ssrc pt samples s0 t0 : Nat)
    (frames : List (List (List Nat))) :
    ((packetizeFramesG ssrc pt samples s0 t0 frames).flatten).map RTPPacket.seqNum
      = (List.range ((frames.map List.length).sum)).map (fun i => (s0 + i) % 65536) :=
  packetizeFramesG_flatten_seq ssrc pt samples frames s0 t0

/-- C3: the per-frame sample counts are 960 for the 48 kHz L16 sender and
160 for the 8 kHz mu-law sender, and every packet derived from frame `j`
carries the same timestamp `t0 + j * samples` modulo 2^32 and the same
payload type, so consecutive frames differ by exactly the declared sample
count with 32-bit wraparound. -/
theorem c3_frame_timestamps :
    samplesPerFrameL16 = 960 ∧ samplesPerFramePCMU = 160 ∧
    ∀ (ssrc pt samples s0 t0 : Nat) (frames : List (List (List Nat))) (j : Nat),
      ∀ p ∈ (packetizeFramesG ssrc pt samples s0 t0 frames).getD j [],
        p.timestamp = (t0 + j * samples) % 4294967296 ∧ p.payloadType = pt := by
  refine ⟨by decide, by decide, ?_⟩
  intro ssrc pt samples s0 t0 frames j p hp
  rw [packetizeFramesG_getD] at hp
  obtain ⟨h1, h2, _⟩ := packetizeChunks_mem ssrc pt (t0 + j * samples) _ _ p hp
  exact ⟨h1, h2⟩

/-- Witness for C3 at a concrete fragmented two-frame run. -/
theorem c3_frame_timestamps_witness :
    ({ seqNum := 1 % 65536, timestamp := (5 + 4) % 4294967296, ssrc := 0 % 4294967296,
        payloadType := 96, payload := [2] } : RTPPacket).timestamp
      = (5 + 1 * 4) % 4294967296 ∧
    ({ seqNum := 1 % 65536, timestamp := (5 + 4) % 4294967296, ssrc := 0 % 4294967296,
        payloadType := 96, payload := [2] } : RTPPacket).payloadType = 96 :=
  c3_frame_timestamps.2.2 0 96 4 0 5 [[[1]], [[2], [3]]] 1 _ (by decide)

/-- C4: for any positive MTU, the L16 payloader splits its payload into
chunks of at most MTU bytes whose in-order concatenation is the payload, and
when MTU and payload length are even (they are: 1500 and whole 16-bit
frames) every chunk boundary falls at an even offset, never inside a sample;
the mu-law payloader splits its encoder output the same way (its samples are
single bytes, so no boundary can split one). -/
theorem c4_payload_chunking (mtu : Nat) (hm : 1 ≤ mtu) (payload : List Nat) :
    (∃ chunks, pcmPayloaderPayload mtu payload = some chunks ∧
      chunks.flatten = payload ∧ (∀ c ∈ chunks, c.length ≤ mtu) ∧
      (2 ∣ mtu → 2 ∣ payload.length → ∀ k, 2 ∣ (((chunks.take k).flatten).length))) ∧
    (∀ enc, muLawEncode payload = some enc →
      ∃ chunks, pcmToMuLawPayloaderPayload mtu payload = some chunks ∧
        chunks.flatten = enc ∧ ∀ c ∈ chunks, c.length ≤ mtu) := by
  constructor
  · refine ⟨chunksOf mtu payload, ?_, ?_, ?_, ?_⟩
    · unfold pcmPayloaderPayload
      exact chunkLoop_eq mtu hm _ _ (by omega)
    · exact chunksOf_flatten mtu hm payload.length payload (le_refl _)
    · exact chunksOf_le mtu payload
    · intro h2m h2l k
      exact chunksOf_boundary_even mtu payload h2m h2l k
  · intro enc henc
    refine ⟨chunksOf mtu enc, ?_, ?_, ?_⟩
    · unfold pcmToMuLawPayloaderPayload
      rw [henc]
      exact chunkLoop_eq mtu hm _ _ (by omega)
    · exact chunksOf_flatten mtu hm enc.length enc (le_refl _)
    · exact chunksOf_le mtu enc

/-- Witness for C4 at MTU 2 and a five-byte payload. -/
theorem c4_payload_chunking_witness :
    (1 : Nat) ≤ 2 ∧
    ((∃ chunks, pcmPayloaderPayload 2 [1, 2, 3, 4, 5] = some chunks ∧
      chunks.flatten = [1, 2, 3, 4, 5] ∧ (∀ c ∈ chunks, c.length ≤ 2) ∧
      (2 ∣ 2 → 2 ∣ ([1, 2, 3, 4, 5] : List Nat).length →
        ∀ k, 2 ∣ (((chunks.take k).flatten).length))) ∧
    (∀ enc, muLawEncode [1, 2, 3, 4, 5] = some enc →
      ∃ chunks, pcmToMuLawPayloaderPayload 2 [1, 2, 3, 4, 5] = some chunks ∧
        chunks.flatten = enc ∧ ∀ c ∈ chunks, c.length ≤ 2)) :=
  ⟨by decide, c4_payload_chunking 2 (by decide) [1, 2, 3, 4, 5]⟩

/-- C5 counterexample: the claim promises a round trip within the
quantization error bound of the input segment for every 16-bit sample, but
at -32768 the encoder (through the int16 overflow) emits byte 127, which
decodes to 0: the round-trip error is 32768, beyond even the full top-segment
step of 1024. -/
theorem c5_roundtrip_counterexample :
    linearToMuLaw (-32768) = some 127 ∧ muLawDecode 127 = 0 ∧
    (muLawDecode 127 - (-32768)).natAbs = 32768 ∧ 1024 < 32768 := by
  decide

/-- C5 amended: for every 16-bit sample except -32768, encoding then
decoding lands within half a quantization step of the segment of the clamped
magnitude (2^(e+2) for the segment exponent e), plus the clipping excess for
magnitudes above the clip level 32635. -/
theorem c5_roundtrip_amended (s : Int) (h1 : -32768 < s) (h2 : s < 32768) :
    ∃ u e, linearToMuLaw s = some u ∧ e ≤ 7 ∧
      2 ^ (e + 7) ≤ min s.natAbs 32635 + 132 ∧
      min s.natAbs 32635 + 132 < 2 ^ (e + 8) ∧
      (muLawDecode u - s).natAbs ≤ 2 ^ (e + 2) + (s.natAbs - 32635) :=
  muLaw_roundtrip_bound s h1 h2

/-- Witness for C5 at the sample 1000. -/
theorem c5_roundtrip_amended_witness :
    (-32768 : Int) < 1000 ∧ (1000 : Int) < 32768 ∧
    ∃ u e, linearToMuLaw 1000 = some u ∧ e ≤ 7 ∧
      2 ^ (e + 7) ≤ min (1000 : Int).natAbs 32635 + 132 ∧
      min (1000 : Int).natAbs 32635 + 132 < 2 ^ (e + 8) ∧
      (muLawDecode u - 1000).natAbs ≤ 2 ^ (e + 2) + ((1000 : Int).natAbs - 32635) :=
  ⟨by decide, by decide, c5_roundtrip_amended 1000 (by decide) (by decide)⟩

/-- C6 counterexample: on one second of 48 kHz mono 16-bit silence (96000
zero bytes) the sender produces 25 frames — not 50, since its frame size is
3840 bytes (20 ms at the configured 2 channels) — and 75 RTP packets — not
50, since each 3840-byte frame splits into three chunks under the 1500-byte
MTU. -/
theorem c6_end_to_end_counterexample :
    ∃ groups, l16SenderPackets 0 0 0 (List.replicate 96000 0) EndKind.cleanEOF = some groups ∧
      groups.length = 25 ∧ groups.flatten.length = 75 ∧ ¬ (25 : Nat) = 50 ∧ ¬ (75 : Nat) = 50 := by
  obtain ⟨g, h1, h2, h3, _⟩ := l16_silence_master 0 0 0
  exact ⟨g, h1, h2, h3, by decide, by decide⟩

/-- C6 amended: one second of 48 kHz mono 16-bit silence (96000 zero bytes)
yields 25 frames and 75 RTP packets, all with the one sync-source id and
payload type, sequence numbers s0..s0+74 modulo 2^16, timestamps advancing
by 960 per frame modulo 2^32, and the receiver reconstructs exactly 48000
silent samples. -/
theorem c6_end_to_end_amended (ssrc s0 t0 : Nat) :
    samplesPerFrameL16 = 960 ∧
    ∃ groups,
      l16SenderPackets ssrc s0 t0 (List.replicate 96000 0) EndKind.cleanEOF = some groups ∧
      groups.length = 25 ∧
      groups.flatten.length = 75 ∧
      groups.flatten.map RTPPacket.seqNum = (List.range 75).map (fun i => (s0 + i) % 65536) ∧
      (∀ j : Nat, ∀ pk ∈ groups.getD j [],
        pk.timestamp = (t0 + j * 960) % 4294967296 ∧ pk.payloadType = payloadTypeL16
          ∧ pk.ssrc = ssrc % 4294967296) ∧
      ∀ addr : Nat,
        lookupPeer (receiverRun []
            (groups.flatten.map (fun pk => (addr, marshalRTP pk)))) addr
          = some (List.replicate 48000 0) := by
  refine ⟨by decide, ?_⟩
  obtain ⟨g, h1, h2, h3, h4, h5, h6⟩ := l16_silence_master ssrc s0 t0
  refine ⟨g, h1, h2, h3, h4, ?_, h6⟩
  intro j pk hpk
  have hx := h5 j pk hpk
  rwa [show samplesPerFrameL16 = 960 from by decide] at hx

/-- C7: a datagram that fails RTP header validation leaves the peer map
untouched and the receive loop continues with the remaining datagrams
exactly as if the malformed one had never arrived. -/
theorem c7_malformed_dropped (m : List (Nat × List Int)) (addr : Nat) (bytes : List Nat)
    (rest : List (Nat × List Nat)) (h : parseRTP bytes = none) :
    receiverStep m (addr, bytes) = m ∧
    receiverRun m ((addr, bytes) :: rest) = receiverRun m rest := by
  have h1 : receiverStep m (addr, bytes) = m := by
    simp [receiverStep, h]
  exact ⟨h1, by simp [receiverRun, h1]⟩

/-- Witness for C7: a three-byte datagram is dropped and a following valid
packet is still processed. -/
theorem c7_malformed_dropped_witness :
    parseRTP [1, 2, 3] = none ∧
    (parseRTP (List.replicate 12 128)).isSome = true ∧
    (receiverStep [] (5, [1, 2, 3]) = [] ∧
      receiverRun [] [(5, [1, 2, 3]), (6, List.replicate 12 128)]
        = receiverRun [] [(6, List.replicate 12 128)]) :=
  ⟨by decide, by decide,
    c7_malformed_dropped [] 5 [1, 2, 3] [(6, List.replicate 12 128)] (by decide)⟩

/-- C8: after any sequence of datagrams, the container of each source
address exists exactly when a valid packet from that address has arrived
(lazy creation), and holds exactly the concatenation, in arrival order, of
the decoded payloads of that address own valid packets — so containers of
distinct addresses are independent and never interleaved. -/
theorem c8_peer_separation (ds : List (Nat × List Nat)) (a : Nat) :
    lookupPeer (receiverRun [] ds) a
      = if seenValid ds a then some (collected ds a) else none := by
  rw [receiverRun_lookup]
  rfl

/-- C9: with a positive frame size, the frame reader delivers only whole
frames — exactly `length / frameSize` of them, concatenating to the
full-frame prefix of the stream — and terminates carrying the stream-end
kind it encountered: clean on end of stream, fatal on a read fault. -/
theorem c9_frame_read (frameSize : Nat) (h : 0 < frameSize) (endk : EndKind)
    (stream : List Nat) :
    readLoop frameSize endk stream = some (framesOf frameSize stream, endk) ∧
    (∀ f ∈ framesOf frameSize stream, f.length = frameSize) ∧
    (framesOf frameSize stream).length = stream.length / frameSize ∧
    (framesOf frameSize stream).flatten
      = stream.take (stream.length / frameSize * frameSize) :=
  ⟨readLoop_eq _ h _ _, framesOf_full _ h _, framesOf_length _ _,
    framesOf_flatten _ h _ _ (le_refl _)⟩

/-- Witness for C9 on a three-byte stream with frame size two, ending in a
read fault. -/
theorem c9_frame_read_witness :
    (0 : Nat) < 2 ∧
    (readLoop 2 EndKind.ioError [1, 2, 3] = some (framesOf 2 [1, 2, 3], EndKind.ioError) ∧
    (∀ f ∈ framesOf 2 [1, 2, 3], f.length = 2) ∧
    (framesOf 2 [1, 2, 3]).length = ([1, 2, 3] : List Nat).length / 2 ∧
    (framesOf 2 [1, 2, 3]).flatten
      = ([1, 2, 3] : List Nat).take (([1, 2, 3] : List Nat).length / 2 * 2)) :=
  ⟨by decide, c9_frame_read 2 (by decide) EndKind.ioError [1, 2, 3]⟩

/-- C10: the receiver decodes exactly `payloadLength / 2` samples, the k-th
being the big-endian signed 16-bit integer from payload bytes 2k and 2k+1 (a
trailing odd byte is discarded); packet handling depends only on the payload
bytes, never on the payload type field; and a packet with fewer than two
payload bytes from a new address still creates that address container,
appending nothing. -/
theorem c10_receiver_decode :
    (∀ payload : List Nat, (decodeSamples payload).length = payload.length / 2) ∧
    (∀ (payload : List Nat) (k : Nat), 2 * k + 1 < payload.length →
      (decodeSamples payload).getD k 0
        = wrap16 ((payload.getD (2 * k) 0 % 256 : Int) * 256
            + (payload.getD (2 * k + 1) 0 % 256 : Int))) ∧
    (∀ (m : List (Nat × List Int)) (a : Nat) (p q : RTPPacket), p.payload = q.payload →
      processPacket m a p = processPacket m a q) ∧
    (∀ (m : List (Nat × List Int)) (a : Nat) (p : RTPPacket),
      lookupPeer m a = none → p.payload.length < 2 →
      lookupPeer (processPacket m a p) a = some []) := by
  refine ⟨decodeSamples_length, decodeSamples_getD, ?_, ?_⟩
  · intro m a p q hpq
    unfold processPacket
    rw [hpq]
  · intro m a p hnone hshort
    rw [processPacket_lookup_self, hnone]
    have hz : decodeSamples p.payload = [] :=
      List.eq_nil_of_length_eq_zero (by rw [decodeSamples_length]; omega)
    rw [hz]
    rfl

/-- Witness for C10: a three-byte payload decodes to its one leading sample,
and a one-byte packet from a fresh address creates an empty container. -/
theorem c10_receiver_decode_witness :
    2 * 0 + 1 < ([1, 2, 3] : List Nat).length ∧
    (decodeSamples [1, 2, 3]).getD 0 0
      = wrap16 ((([1, 2, 3] : List Nat).getD (2 * 0) 0 % 256 : Int) * 256
          + (([1, 2, 3] : List Nat).getD (2 * 0 + 1) 0 % 256 : Int)) ∧
    lookupPeer ([] : List (Nat × List Int)) 7 = none ∧
    ({ seqNum := 0, timestamp := 0, ssrc := 0, payloadType := 0,
        payload := [9] } : RTPPacket).payload.length < 2 ∧
    lookupPeer (processPacket [] 7
      { seqNum := 0, timestamp := 0, ssrc := 0, payloadType := 0, payload := [9] }) 7
      = some [] :=
  ⟨by decide, c10_receiver_decode.2.1 [1, 2, 3] 0 (by decide), by decide, by decide,
    c10_receiver_decode.2.2.2 [] 7 _ (by decide) (by decide)⟩
